import Mathlib

/- Shallow embedding of src/main.py, the query-compiler pipeline of the
class Chat in the simpleRealtorAssistant repository: action locating
(split_on_parts), field classification (split_fields), field transforms
(fix_search_fields, fix_insertion_fields), intent resolution (make_query)
and response rendering (format_response). -/

/-- Error kinds, one per raise site of the pipeline.  The source raises
ValueError with Ukrainian messages; the spec names the kinds as below.
minOfEmpty models the ValueError Python's min/max raise on an empty
sequence in the price branch of fix_search_fields; typeMismatch models the
TypeError/AttributeError Python would raise in format_response when the
result value has the wrong shape for the branch. -/
inductive Err
  | patternNotFound
  | malformedQuery
  | unknownTarget
  | unknownVerb
  | permissionDenied
  | missingRequiredField
  | unknownRenderTarget
  | minOfEmpty
  | typeMismatch
  deriving DecidableEq, Repr

/-- Value stored under a field name: raw word buckets, the storage-query
fragments produced by fix_search_fields ($elemMatch/$in, $regex with the
case-insensitive option, $in membership, $gte/$lte range) and the plain
string values produced by fix_insertion_fields (the timestamp). -/
inductive FieldVal
  | words (ws : List String)
  | elemMatchIn (ws : List String)
  | regexI (s : String)
  | inList (ws : List String)
  | range (lo hi : Nat)
  | str (s : String)
  deriving DecidableEq, Repr

/-- Lookup in an insertion-ordered dictionary (Python dict semantics). -/
def dictGet {α : Type} : List (String × α) → String → Option α
  | [], _ => none
  | (k, v) :: rest, key => if k = key then some v else dictGet rest key

/-- Update in an insertion-ordered dictionary: an existing key keeps its
position, a new key is appended at the end (Python dict assignment). -/
def dictSet {α : Type} : List (String × α) → String → α → List (String × α)
  | [], key, v => [(key, v)]
  | (k, w) :: rest, key, v =>
    if k = key then (key, v) :: rest else (k, w) :: dictSet rest key v

/-- Deletion from an insertion-ordered dictionary; deleting an absent key
is a no-op (the source wraps del in try/except pass). -/
def dictDel {α : Type} : List (String × α) → String → List (String × α)
  | [], _ => []
  | (k, w) :: rest, key => if k = key then rest else (k, w) :: dictDel rest key

/-- Membership test for a dictionary key. -/
def dictHas {α : Type} (m : List (String × α)) (key : String) : Bool :=
  (dictGet m key).isSome

/-- Modelled from the spec: the pattern catalog loaded at startup from
patterns.json, a file that is not part of the repository.  The regex
fragments rverbs and raction_words are modelled as alternations of literal
words; field_words is the keyword-to-canonical-field-name mapping (the
source checks membership in patterns["field_words"] and reads the
canonical name from the catalog). -/
structure Catalog where
  rverbs : List (List Char)
  raction_words : List (List Char)
  field_words : List (String × String)
  get_verbs : List String
  insert_verbs : List String
  realty : List String
  worker : List String
  request : List String
  deriving DecidableEq

/-- Conversion from a string literal to its character list. -/
def toL (s : String) : List Char := s.data

/-- Conversion from a character list back to a string. -/
def ofL (l : List Char) : String := String.mk l

/-- Boolean test that p is a prefix of l. -/
def beginsWith : List Char → List Char → Bool
  | [], _ => true
  | _ :: _, [] => false
  | a :: as, b :: bs => a = b && beginsWith as bs

/-- Modelled from the spec: the character class [\w\s] of the action
pattern, restricted to the character repertoire the pipeline sees (ASCII
alphanumerics, underscore, space, and the Cyrillic block used by the
Ukrainian vocabulary). -/
def isWordSpace (c : Char) : Bool :=
  c = ' ' || c.isAlphanum || c = '_' || (0x400 ≤ c.toNat && c.toNat ≤ 0x4FF)

/-- First some-result of f over a list, in order (regex alternation order,
and the left-to-right scan of re.search over start positions). -/
def firstSome {α β : Type} (f : α → Option β) : List α → Option β
  | [] => none
  | a :: rest =>
    match f a with
    | some b => some b
    | none => firstSome f rest

/-- Greedy search for the filler of the action pattern: try filler lengths
n, n-1, ..., 0 (the regex quantifier \x7b0,20\x7d is greedy), and for each
admissible filler try the action-word alternatives in order.  Returns the
filler and the action word. -/
def tryFillers (acts : List (List Char)) (rest : List Char) : Nat → Option (List Char × List Char)
  | 0 =>
    firstSome (fun a => if beginsWith a rest then some (([] : List Char), a) else none) acts
  | n + 1 =>
    match
      (if (rest.take (n + 1)).length = n + 1 ∧ (rest.take (n + 1)).all isWordSpace then
        firstSome
          (fun a => if beginsWith a (rest.drop (n + 1)) then some (rest.take (n + 1), a) else none)
          acts
      else none) with
    | some r => some r
    | none => tryFillers acts rest n

/-- Match of the action pattern <verb>[\w\s]\x7b0,20\x7d<action-word>
anchored at the start of s: verb alternatives in order, then the greedy
filler, then the action-word alternatives.  Returns the matched text. -/
def matchAt (verbs acts : List (List Char)) (s : List Char) : Option (List Char) :=
  firstSome
    (fun v =>
      if beginsWith v s then
        (tryFillers acts (s.drop v.length) 20).map (fun p => v ++ p.1 ++ p.2)
      else none)
    verbs

/-- re.search of the action pattern over s: the match at the leftmost
start position wins (Python re.search semantics). -/
def searchAction (verbs acts : List (List Char)) (s : List Char) : Option (List Char) :=
  firstSome (fun i => matchAt verbs acts (s.drop i)) (List.range (s.length + 1))

/-- Scan of Python str.replace(old, "") with explicit fuel (one unit per
consumed character, so fuel s.length always suffices): delete every
left-to-right non-overlapping occurrence of a nonempty m; an empty m
leaves the string unchanged. -/
def replaceAllGo (m : List Char) : Nat → List Char → List Char
  | 0, s => s
  | _ + 1, [] => []
  | fuel + 1, c :: rest =>
    if beginsWith m (c :: rest) ∧ m ≠ [] then
      replaceAllGo m fuel (rest.drop (m.length - 1))
    else
      c :: replaceAllGo m fuel rest

/-- Python str.replace(old, "") on character lists. -/
def replaceAll (m s : List Char) : List Char := replaceAllGo m s.length s

/-- Number of occurrences the left-to-right scan of str.replace deletes,
with the same fuel discipline as replaceAllGo. -/
def scanCountGo (m : List Char) : Nat → List Char → Nat
  | 0, _ => 0
  | _ + 1, [] => 0
  | fuel + 1, c :: rest =>
    if beginsWith m (c :: rest) ∧ m ≠ [] then
      1 + scanCountGo m fuel (rest.drop (m.length - 1))
    else
      scanCountGo m fuel rest

/-- Number of occurrences deleted by replaceAll. -/
def scanCount (m s : List Char) : Nat := scanCountGo m s.length s

/-- Python str.split(" "): split on every single space, keeping empty
pieces. -/
def splitSpace : List Char → List (List Char)
  | [] => [[]]
  | c :: rest =>
    match splitSpace rest with
    | [] => [[]]
    | g :: gs => if c = ' ' then [] :: g :: gs else (c :: g) :: gs

/-- The space-joined sentence the pipeline searches (" ".join). -/
def joinWords (ws : List String) : List Char := toL (String.intercalate " " ws)

/-- split_on_parts from src/main.py: join the normalized words, search the
action pattern, on failure raise the pattern-not-found error; on success
delete every occurrence of the matched text (str.replace), split the rest
on spaces dropping empty entries, and return the first and last
whitespace-delimited tokens of the match as (verb, target). -/
def split_on_parts (cat : Catalog) (ws : List String) :
    Except Err (List String × (String × String)) :=
  let joined := joinWords ws
  match searchAction cat.rverbs cat.raction_words joined with
  | none => .error .patternNotFound
  | some m =>
    let fields := ((splitSpace (replaceAll m joined)).filter (fun l => l ≠ [])).map ofL
    let toks := splitSpace m
    .ok (fields, (ofL (toks.headD []), ofL (toks.getLastD [])))

/-- End-of-input commit of the open bucket: the source writes fields |=
\x7brow[0]: row[1]\x7d, overwriting - not merging - any existing bucket of
the same field name. -/
def commitRow (flds : List (String × List String)) :
    Option (String × List String) → List (String × List String)
  | none => flds
  | some (n, ws) => dictSet flds n ws

/-- Mid-sequence commit of the open bucket when a field keyword arrives:
the open words are merged in front of any existing bucket of the same
name (row[1] + ins in the source). -/
def mergeRow (flds : List (String × List String)) :
    Option (String × List String) → List (String × List String)
  | none => flds
  | some (n, ws) => dictSet flds n (ws ++ ((dictGet flds n).getD []))

/-- Loop of split_fields: flds is the bucket map built so far, row the
open bucket (Python keeps it as a two-element list; an empty list, i.e.
none here, only before the first keyword).  A field keyword commits the
open bucket via mergeRow and opens a fresh bucket under the keyword's
canonical name; a plain word is appended to the open bucket, and with no
open bucket the IndexError is caught and re-raised as the malformed-query
error; at end of input the open bucket is committed via commitRow. -/
def splitFieldsLoop (cat : Catalog) :
    List (String × List String) → Option (String × List String) → List String →
    Except Err (List (String × List String))
  | flds, row, [] => .ok (commitRow flds row)
  | flds, row, w :: rest =>
    (dictGet cat.field_words w).elim
      (row.elim (.error .malformedQuery)
        (fun p => splitFieldsLoop cat flds (some (p.1, p.2 ++ [w])) rest))
      (fun name => splitFieldsLoop cat (mergeRow flds row) (some (name, [])) rest)

/-- split_fields from src/main.py: classify the field words into buckets
keyed by canonical field names. -/
def split_fields (cat : Catalog) (query : List String) :
    Except Err (List (String × List String)) :=
  splitFieldsLoop cat [] none query

/-- Maximal runs of decimal digits of a character list (re.findall of \d+);
cur is the reversed run being accumulated. -/
def digitRunsAux (cur : List Char) : List Char → List (List Char)
  | [] => if cur = [] then [] else [cur.reverse]
  | c :: rest =>
    if c.isDigit then digitRunsAux (c :: cur) rest
    else if cur = [] then digitRunsAux [] rest
    else cur.reverse :: digitRunsAux [] rest

/-- All digit runs of a character list. -/
def digitRuns (s : List Char) : List (List Char) := digitRunsAux [] s

/-- Decimal value of a digit run (Python int). -/
def natOfDigits (l : List Char) : Nat :=
  l.foldl (fun n c => n * 10 + (c.toNat - 48)) 0

/-- The integers parsed from the digit runs of the joined price bucket. -/
def priceValues (ws : List String) : List Nat :=
  (digitRuns (joinWords ws)).map natOfDigits

/-- Python min over a nonempty list (head as the seed). -/
def listMin : List Nat → Nat
  | [] => 0
  | x :: xs => xs.foldl Nat.min x

/-- Python max over a nonempty list (head as the seed). -/
def listMax : List Nat → Nat
  | [] => 0
  | x :: xs => xs.foldl Nat.max x

/-- Raw word list stored under an optional field value (always a words
bucket at the points where the source reads it). -/
def getWords : Option FieldVal → List String
  | some (.words ws) => ws
  | _ => []

/-- One iteration of the fix_search_fields loop at key k: description and
address buckets are folded into $elemMatch/$in fragments under
norm_description / norm_address (merging with any such bucket already in
nfields, the bucket words first) and the raw key is deleted; fullname
becomes a case-insensitive regex on the space-joined words; timestamp and
level become $in membership tests; price becomes a $gte/$lte range over
the integers parsed from the digit runs of the joined bucket, raising the
empty-sequence ValueError of min when there is no digit; any other key is
left unchanged. -/
def searchStep (nf : List (String × FieldVal)) (k : String) :
    Except Err (List (String × FieldVal)) :=
  if k = "description" then
    let ins := getWords (dictGet nf "norm_description")
    let cur := getWords (dictGet nf k)
    .ok (dictDel (dictSet nf "norm_description" (.elemMatchIn (cur ++ ins))) k)
  else if k = "fullname" then
    .ok (dictSet nf k (.regexI (String.intercalate " " (getWords (dictGet nf k)))))
  else if k = "address" then
    let ins := getWords (dictGet nf "norm_address")
    let cur := getWords (dictGet nf k)
    .ok (dictDel (dictSet nf "norm_address" (.elemMatchIn (cur ++ ins))) k)
  else if k = "timestamp" ∨ k = "level" then
    .ok (dictSet nf k (.inList (getWords (dictGet nf k))))
  else if k = "price" then
    let values := priceValues (getWords (dictGet nf k))
    if values = [] then .error .minOfEmpty
    else .ok (dictSet nf k (.range (listMin values) (listMax values)))
  else .ok nf

/-- Fold of searchStep over the keys of the original field map (the source
iterates over fields.keys() while mutating the copy nfields). -/
def searchSteps : List (String × FieldVal) → List String → Except Err (List (String × FieldVal))
  | nf, [] => .ok nf
  | nf, k :: ks =>
    match searchStep nf k with
    | .ok nf' => searchSteps nf' ks
    | .error e => .error e

/-- fix_search_fields from src/main.py: transform raw buckets into a read
filter. -/
def fix_search_fields (fields : List (String × List String)) :
    Except Err (List (String × FieldVal)) :=
  searchSteps (fields.map (fun p => (p.1, FieldVal.words p.2))) (fields.map Prod.fst)

/-- Normalized description word list of the insertion transform: the
description bucket run through the external normalizer when the raw bucket
is nonempty, empty otherwise (the source guards with the truthiness of the
raw bucket). -/
def insertionDesc (normalize : String → List String)
    (fields : List (String × List String)) : List String :=
  let raw := (dictGet fields "description").getD []
  if raw = [] then [] else normalize (String.intercalate " " raw)

/-- Normalized address word list of the insertion transform, symmetric to
insertionDesc. -/
def insertionAddr (normalize : String → List String)
    (fields : List (String × List String)) : List String :=
  let raw := (dictGet fields "address").getD []
  if raw = [] then [] else normalize (String.intercalate " " raw)

/-- The tags list of the insertion transform: normalized description words
followed by normalized address words. -/
def insertionTags (normalize : String → List String)
    (fields : List (String × List String)) : List String :=
  insertionDesc normalize fields ++ insertionAddr normalize fields

/-- fix_insertion_fields from src/main.py: check the per-collection
required fields (appartments needs address and price, requests needs
fullname), then derive norm_description from the description bucket and
again - overwriting - from the address bucket, store the concatenation of
the two normalized lists as tags when nonempty, and stamp the creation
timestamp (the now parameter stands for the external
datetime.now().strftime call). -/
def fix_insertion_fields (normalize : String → List String) (now : String)
    (fields : List (String × List String)) (collection : String) :
    Except Err (List (String × FieldVal)) :=
  if collection = "appartments" ∧ ¬(dictHas fields "address" ∧ dictHas fields "price") then
    .error .missingRequiredField
  else if collection = "requests" ∧ ¬(dictHas fields "fullname" = true) then
    .error .missingRequiredField
  else
    let nf0 := fields.map (fun p => (p.1, FieldVal.words p.2))
    let d := insertionDesc normalize fields
    let nf1 := if (dictGet fields "description").getD [] = [] then nf0
      else dictSet nf0 "norm_description" (.words d)
    let a := insertionAddr normalize fields
    let nf2 := if (dictGet fields "address").getD [] = [] then nf1
      else dictSet nf1 "norm_description" (.words a)
    let tags := d ++ a
    let nf3 := if tags = [] then nf2 else dictSet nf2 "tags" (.words tags)
    .ok (dictSet nf3 "timestamp" (.str now))

/-- Collection classification of make_query: the target word is looked up
in the realty, worker and request word lists in that order. -/
def collectionOf (cat : Catalog) (word : String) : Option String :=
  if word ∈ cat.realty then some "appartments"
  else if word ∈ cat.worker then some "workers"
  else if word ∈ cat.request then some "requests"
  else none

/-- Operation classification of make_query: the verb is looked up in the
get_verbs and insert_verbs word lists in that order. -/
def funcOf (cat : Catalog) (verb : String) : Option String :=
  if verb ∈ cat.get_verbs then some "select"
  else if verb ∈ cat.insert_verbs then some "insert"
  else none

/-- The storage call make_query delegates to: a filtered find or a
single-document insert on a collection. -/
inductive StorageCall
  | find (collection : String) (filt : List (String × FieldVal))
  | insertOne (collection : String) (doc : List (String × FieldVal))
  deriving DecidableEq, Repr

/-- make_query from src/main.py: classify the collection from the target
word and the operation from the verb, then walk the nested permission
conditionals; an allowed select runs the search transform and delegates a
find, an allowed insert runs the insertion transform and delegates an
insert_one, and any other combination raises the permission error. -/
def make_query (normalize : String → List String) (now : String) (cat : Catalog)
    (status verb word : String) (fields : List (String × List String)) :
    Except Err (StorageCall × String × String) :=
  match collectionOf cat word with
  | none => .error .unknownTarget
  | some collection =>
    match funcOf cat verb with
    | none => .error .unknownVerb
    | some func =>
      if status = "customer" ∧ func = "select" ∧
          collection ∈ (["appartments", "workers"] : List String) then
        (fix_search_fields fields).map (fun nf => (.find collection nf, collection, func))
      else if status = "customer" ∧ func = "insert" ∧ collection = "requests" then
        (fix_insertion_fields normalize now fields collection).map
          (fun doc => (.insertOne collection doc, collection, func))
      else if status = "realtor" ∧ func = "select" ∧
          collection ∈ (["requests", "appartments"] : List String) then
        (fix_search_fields fields).map (fun nf => (.find collection nf, collection, func))
      else if status = "realtor" ∧ func = "insert" ∧ collection = "appartments" then
        (fix_insertion_fields normalize now fields collection).map
          (fun doc => (.insertOne collection doc, collection, func))
      else .error .permissionDenied

/-- Result value handed to format_response: a list of documents from find,
or the acknowledgment of insert_one carrying the generated identifier. -/
inductive ResultVal
  | docs (l : List (List (String × String)))
  | ack (id : String)
  deriving DecidableEq, Repr

/-- Python x or "-": a missing or empty (falsy) value renders as a dash. -/
def orDash (o : Option String) : String :=
  match o with
  | some v => if v = "" then "-" else v
  | none => "-"

/-- One numbered appartments block of the select rendering. -/
def renderApp (i : Nat) (d : List (String × String)) : String :=
  toString (i + 1) ++ ".\n" ++
  "Адреса: " ++ orDash (dictGet d "address") ++ "\n" ++
  "Ціна: " ++ orDash (dictGet d "price") ++ "\n" ++
  "Опис: " ++ orDash (dictGet d "description") ++ "\n" ++
  "Рієлтор: " ++ orDash (dictGet d "fullname") ++ "\n" ++
  "Час публікації: " ++ orDash (dictGet d "timestamp") ++ "\n\n"

/-- One numbered workers block of the select rendering. -/
def renderWorker (i : Nat) (d : List (String × String)) : String :=
  toString (i + 1) ++ ".\n" ++
  "Рієлтор: " ++ orDash (dictGet d "fullname") ++ "\n" ++
  "Опис: " ++ orDash (dictGet d "description") ++ "\n" ++
  "Рейтинг: " ++ orDash (dictGet d "level") ++ "\n\n"

/-- One numbered requests block of the select rendering. -/
def renderRequest (i : Nat) (d : List (String × String)) : String :=
  toString (i + 1) ++ ".\n" ++
  "Адреса: " ++ orDash (dictGet d "address") ++ "\n" ++
  "Ціна: " ++ orDash (dictGet d "price") ++ "\n" ++
  "Опис: " ++ orDash (dictGet d "description") ++ "\n" ++
  "Замовник: " ++ orDash (dictGet d "fullname") ++ "\n" ++
  "Час запиту: " ++ orDash (dictGet d "timestamp") ++ "\n\n"

/-- Loop of the select branch of format_response: the unknown-collection
check sits inside the loop body, so it fires only when at least one
document is rendered. -/
def renderDocs (collection : String) :
    List (List (String × String)) → String → Nat → Except Err String
  | [], acc, _ => .ok acc
  | d :: rest, acc, i =>
    if collection = "appartments" then renderDocs collection rest (acc ++ renderApp i d) (i + 1)
    else if collection = "workers" then renderDocs collection rest (acc ++ renderWorker i d) (i + 1)
    else if collection = "requests" then renderDocs collection rest (acc ++ renderRequest i d) (i + 1)
    else .error .unknownRenderTarget

/-- format_response from src/main.py: select renders a numbered list with
a per-collection layout (iterating the result), insert on requests
renders the fixed acknowledgment, insert on any other collection - known
or not - renders the sentence with the inserted identifier, and any other
operation raises the unknown-render-target error. -/
def format_response (result : ResultVal) (collection func : String) : Except Err String :=
  if func = "select" then
    match result with
    | .docs l => renderDocs collection l "Було знайдено наступні дані:\n\n" 0
    | .ack _ => .error .typeMismatch
  else if func = "insert" then
    if collection = "requests" then
      .ok ("Ваш запит було успішно опрацьовано! " ++
        "З вами зв\x27яжуться протягом робочого дня.\n")
    else
      match result with
      | .ack id => .ok ("Було успішно внесено запит у колекцію " ++ collection ++
          " з ідентифікатором " ++ id ++ "\n")
      | .docs _ => .error .typeMismatch
  else .error .unknownRenderTarget

/-- Claim-side statement of the action pattern, following the words of the
spec: the sentence contains a substring made of a verb alternative, up to
20 word-or-whitespace filler characters, and an action-word alternative. -/
def HasActionMatch (verbs acts : List (List Char)) (s : List Char) : Prop :=
  ∃ p v f a q, s = p ++ v ++ f ++ a ++ q ∧ v ∈ verbs ∧ a ∈ acts ∧
    f.length ≤ 20 ∧ ∀ c ∈ f, isWordSpace c = true

/-- The six allowed (role, operation, collection) triples of the
permission matrix. -/
def allowedTriples : List (String × String × String) :=
  [("customer", "select", "appartments"), ("customer", "select", "workers"),
   ("customer", "insert", "requests"), ("realtor", "select", "requests"),
   ("realtor", "select", "appartments"), ("realtor", "insert", "appartments")]

/-- A small concrete catalog instance used for witnesses and
counterexamples, built from the vocabulary the spec quotes. -/
def demoCat : Catalog where
  rverbs := [toL "показати"]
  raction_words := [toL "нерухомість"]
  field_words := [("ціна", "price"), ("адреса", "address")]
  get_verbs := ["показати"]
  insert_verbs := ["додати"]
  realty := ["нерухомість"]
  worker := ["рієлтор"]
  request := ["запит"]

/-! Helper lemmas about the dictionary operations. -/

theorem dictGet_dictSet_self {α : Type} (m : List (String × α)) (k : String) (v : α) :
    dictGet (dictSet m k v) k = some v := by
  induction m with
  | nil => simp [dictSet, dictGet]
  | cons p rest ih =>
    obtain ⟨k1, v1⟩ := p
    by_cases h : k1 = k
    · simp [dictSet, dictGet, h]
    · simp [dictSet, dictGet, h, ih]

theorem dictGet_dictSet_ne {α : Type} (m : List (String × α)) (k key : String) (v : α)
    (h : k ≠ key) : dictGet (dictSet m k v) key = dictGet m key := by
  induction m with
  | nil => simp [dictSet, dictGet, h]
  | cons p rest ih =>
    obtain ⟨k1, v1⟩ := p
    by_cases h1 : k1 = k
    · subst h1
      simp [dictSet, dictGet, h]
    · simp [dictSet, dictGet, h1, ih]

theorem dictGet_dictDel_ne {α : Type} (m : List (String × α)) (k key : String)
    (h : k ≠ key) : dictGet (dictDel m k) key = dictGet m key := by
  induction m with
  | nil => simp [dictDel]
  | cons p rest ih =>
    obtain ⟨k1, v1⟩ := p
    by_cases h1 : k1 = k
    · subst h1
      simp [dictDel, dictGet, h]
    · simp [dictDel, dictGet, h1, ih]

theorem dictGet_map_words (fields : List (String × List String)) (k : String) :
    dictGet (fields.map (fun p => (p.1, FieldVal.words p.2))) k =
      (dictGet fields k).map FieldVal.words := by
  induction fields with
  | nil => simp [dictGet]
  | cons p rest ih =>
    obtain ⟨k1, v1⟩ := p
    by_cases h : k1 = k
    · simp [dictGet, h]
    · simp [dictGet, h, ih]

theorem mem_keys_dictSet {α : Type} (m : List (String × α)) (k key : String) (v : α) :
    key ∈ (dictSet m k v).map Prod.fst ↔ key ∈ m.map Prod.fst ∨ key = k := by
  induction m with
  | nil => simp [dictSet]
  | cons p rest ih =>
    obtain ⟨k1, v1⟩ := p
    by_cases h : k1 = k
    · subst h
      by_cases h2 : key = k1
      · simp [dictSet, h2]
      · simp [dictSet, h2]
    · simp [dictSet, h, ih]
      tauto

theorem nodup_keys_dictSet {α : Type} (m : List (String × α)) (k : String) (v : α)
    (h : (m.map Prod.fst).Nodup) : ((dictSet m k v).map Prod.fst).Nodup := by
  induction m with
  | nil => simp [dictSet]
  | cons p rest ih =>
    obtain ⟨k1, v1⟩ := p
    simp only [List.map_cons, List.nodup_cons] at h
    by_cases h1 : k1 = k
    · subst h1
      simpa [dictSet, List.nodup_cons] using h
    · simp only [dictSet, h1, if_false, List.map_cons, List.nodup_cons]
      refine ⟨?_, ih h.2⟩
      rw [mem_keys_dictSet]
      rintro (hmem | hmem)
      · exact h.1 hmem
      · exact h1 (hmem ▸ rfl)

theorem dictGet_mem_keys {α : Type} (m : List (String × α)) (k : String) (v : α)
    (h : dictGet m k = some v) : k ∈ m.map Prod.fst := by
  induction m with
  | nil => simp [dictGet] at h
  | cons p rest ih =>
    obtain ⟨k1, v1⟩ := p
    by_cases h1 : k1 = k
    · simp [h1]
    · simp only [dictGet, h1, if_false] at h
      simp [ih h]

theorem dictHas_false_get {α : Type} (m : List (String × α)) (k : String)
    (h : dictHas m k = false) : dictGet m k = none := by
  unfold dictHas at h
  cases hg : dictGet m k with
  | none => rfl
  | some v => rw [hg] at h; simp at h

/-! C4: required-field preconditions of the insertion transform. -/

/-- C4.  fix_insertion_fields raises the missing-required-field error
exactly when the target collection is appartments and the field map lacks
address or price (or both), or the target collection is requests and the
field map lacks fullname; with the required fields present it never raises
this error. -/
theorem fix_insertion_required_fields :
    ∀ (normalize : String → List String) (now : String)
      (fields : List (String × List String)) (collection : String),
      fix_insertion_fields normalize now fields collection = .error .missingRequiredField ↔
        ((collection = "appartments" ∧
            ¬(dictHas fields "address" = true ∧ dictHas fields "price" = true)) ∨
          (collection = "requests" ∧ ¬(dictHas fields "fullname" = true))) := by
  intro normalize now fields collection
  unfold fix_insertion_fields
  split
  · next h => exact iff_of_true rfl (Or.inl h)
  · next h1 =>
    split
    · next h2 => exact iff_of_true rfl (Or.inr h2)
    · next h2 => exact iff_of_false (by simp) (by tauto)

/-! C6: the address normalization overwrites the description one under the
single norm_description key. -/

/-- C6.  In insertion mode, when both a description and an address bucket
are present (nonempty, as the source tests their truthiness), both
normalized lists are written to the single derived key norm_description,
the address one last, so the final document's norm_description equals the
normalized address word list. -/
theorem fix_insertion_norm_description_overwrite :
    ∀ (normalize : String → List String) (now : String)
      (fields : List (String × List String)) (collection : String)
      (doc : List (String × FieldVal)) (d a : List String),
      fix_insertion_fields normalize now fields collection = .ok doc →
      dictGet fields "description" = some d → d ≠ [] →
      dictGet fields "address" = some a → a ≠ [] →
      dictGet doc "norm_description" =
        some (.words (normalize (String.intercalate " " a))) := by
  intro normalize now fields collection doc d a hok hd hdne ha hane
  unfold fix_insertion_fields at hok
  split at hok
  · exact absurd hok (by simp)
  · split at hok
    · exact absurd hok (by simp)
    · simp only [Except.ok.injEq] at hok
      subst hok
      have h1 : (dictGet fields "description").getD [] = d := by rw [hd]; rfl
      have h2 : (dictGet fields "address").getD [] = a := by rw [ha]; rfl
      have h3 : insertionAddr normalize fields = normalize (String.intercalate " " a) := by
        simp [insertionAddr, ha, hane]
      rw [dictGet_dictSet_ne _ _ _ _ (by decide), h1, h2, if_neg hdne, if_neg hane]
      split
      · rw [dictGet_dictSet_self, h3]
      · rw [dictGet_dictSet_ne _ _ _ _ (by decide), dictGet_dictSet_self, h3]

/-- C6 witness: a concrete insertion with both buckets present; the final
norm_description is the normalized address list. -/
theorem fix_insertion_norm_description_witness :
    dictGet [("fullname", FieldVal.words ["f"]), ("description", FieldVal.words ["d"]),
        ("address", FieldVal.words ["a"]), ("norm_description", FieldVal.words ["a"]),
        ("tags", FieldVal.words ["d", "a"]), ("timestamp", FieldVal.str "01.01.24")]
      "norm_description" = some (FieldVal.words ["a"]) :=
  (fix_insertion_norm_description_overwrite (fun s => [s]) "01.01.24"
      [("fullname", ["f"]), ("description", ["d"]), ("address", ["a"])] "requests" _
      ["d"] ["a"] rfl rfl (by decide) rfl (by decide)).trans rfl

/-! C7: the tags field of the insertion transform. -/

/-- C7 counterexample: with a caller-supplied tags bucket and an empty
normalized concatenation (no description, no address), the tags field is
not omitted - the input bucket survives in the produced document, contrary
to the claim that tags is omitted entirely whenever the concatenation is
empty. -/
theorem fix_insertion_tags_cex :
    insertionTags (fun s => [s]) [("tags", ["x"]), ("fullname", ["f"])] = [] ∧
    fix_insertion_fields (fun s => [s]) "01.01.24"
        [("tags", ["x"]), ("fullname", ["f"])] "requests" =
      .ok [("tags", .words ["x"]), ("fullname", .words ["f"]),
        ("timestamp", .str "01.01.24")] :=
  ⟨rfl, rfl⟩

/-- C7 amended.  For every insertion-mode transformation whose input field
map contains no tags bucket, the produced document's tags field equals the
concatenation of the normalized description word list followed by the
normalized address word list, and is omitted entirely when that
concatenation is empty (a caller-supplied tags bucket, by contrast,
survives unchanged when the concatenation is empty). -/
theorem fix_insertion_tags_concatenation :
    ∀ (normalize : String → List String) (now : String)
      (fields : List (String × List String)) (collection : String)
      (doc : List (String × FieldVal)),
      fix_insertion_fields normalize now fields collection = .ok doc →
      dictHas fields "tags" = false →
      dictGet doc "tags" =
        if insertionTags normalize fields = [] then none
        else some (.words (insertionTags normalize fields)) := by
  intro normalize now fields collection doc hok htags
  unfold fix_insertion_fields at hok
  split at hok
  · exact absurd hok (by simp)
  · split at hok
    · exact absurd hok (by simp)
    · simp only [Except.ok.injEq] at hok
      subst hok
      rw [dictGet_dictSet_ne _ _ _ _ (by decide)]
      have h0 : dictGet (List.map (fun p => (p.1, FieldVal.words p.2)) fields) "tags" = none := by
        rw [dictGet_map_words, dictHas_false_get _ _ htags]
        rfl
      by_cases htg : insertionDesc normalize fields ++ insertionAddr normalize fields = []
      · simp only [insertionTags, if_pos htg]
        split
        · split
          · exact h0
          · rw [dictGet_dictSet_ne _ _ _ _ (by decide)]
            exact h0
        · rw [dictGet_dictSet_ne _ _ _ _ (by decide)]
          split
          · exact h0
          · rw [dictGet_dictSet_ne _ _ _ _ (by decide)]
            exact h0
      · simp only [insertionTags, if_neg htg]
        rw [dictGet_dictSet_self]

/-- C7 witness: a concrete insertion without a caller-supplied tags
bucket; the tags field is the (here nonempty) normalized concatenation. -/
theorem fix_insertion_tags_witness :
    dictGet [("fullname", FieldVal.words ["f"]), ("description", FieldVal.words ["d"]),
        ("norm_description", FieldVal.words ["d"]), ("tags", FieldVal.words ["d"]),
        ("timestamp", FieldVal.str "01.01.24")] "tags" = some (FieldVal.words ["d"]) :=
  (fix_insertion_tags_concatenation (fun s => [s]) "01.01.24"
      [("fullname", ["f"]), ("description", ["d"])] "requests" _ rfl rfl).trans rfl

/-! C9: the field classifier needs a leading field keyword. -/

/-- C9.  split_fields yields the empty bucket map on empty input, and
raises the malformed-query error on every nonempty input whose first word
is not a recognized field keyword (there is no open bucket to append
to). -/
theorem split_fields_requires_leading_keyword :
    (∀ cat : Catalog, split_fields cat [] = .ok []) ∧
    (∀ (cat : Catalog) (w : String) (rest : List String),
      dictGet cat.field_words w = none →
      split_fields cat (w :: rest) = .error .malformedQuery) := by
  constructor
  · intro cat
    rfl
  · intro cat w rest h
    unfold split_fields splitFieldsLoop
    rw [h]
    rfl

/-- C9 witness: a concrete nonempty query starting with a non-keyword. -/
theorem split_fields_requires_leading_keyword_witness :
    split_fields demoCat ["100"] = .error .malformedQuery :=
  split_fields_requires_leading_keyword.2 demoCat "100" [] rfl

/-! C2: merge behavior of the field classifier on repeated keywords. -/

theorem splitFieldsLoop_nil (cat : Catalog) (flds : List (String × List String))
    (row : Option (String × List String)) :
    splitFieldsLoop cat flds row [] = .ok (commitRow flds row) := rfl

theorem splitFieldsLoop_cons (cat : Catalog) (flds : List (String × List String))
    (row : Option (String × List String)) (w : String) (rest : List String) :
    splitFieldsLoop cat flds row (w :: rest) =
      (dictGet cat.field_words w).elim
        (row.elim (.error .malformedQuery)
          (fun p => splitFieldsLoop cat flds (some (p.1, p.2 ++ [w])) rest))
        (fun name => splitFieldsLoop cat (mergeRow flds row) (some (name, [])) rest) := rfl

theorem splitFieldsLoop_skip (cat : Catalog) (flds : List (String × List String))
    (n : String) (ws a rest : List String)
    (ha : ∀ w ∈ a, dictGet cat.field_words w = none) :
    splitFieldsLoop cat flds (some (n, ws)) (a ++ rest) =
      splitFieldsLoop cat flds (some (n, ws ++ a)) rest := by
  induction a generalizing ws with
  | nil => simp
  | cons w a ih =>
    have hw : dictGet cat.field_words w = none := ha w (by simp)
    have ha' : ∀ x ∈ a, dictGet cat.field_words x = none := fun x hx => ha x (by simp [hx])
    rw [List.cons_append, splitFieldsLoop_cons, hw]
    simp only [Option.elim]
    rw [ih (ws ++ [w]) ha']
    simp [List.append_assoc]

theorem splitFieldsLoop_finish (cat : Catalog) (flds : List (String × List String))
    (n : String) (ws b : List String)
    (hb : ∀ w ∈ b, dictGet cat.field_words w = none) :
    splitFieldsLoop cat flds (some (n, ws)) b = .ok (dictSet flds n (ws ++ b)) := by
  induction b generalizing ws with
  | nil =>
    rw [splitFieldsLoop_nil]
    simp [commitRow]
  | cons w b ih =>
    have hw : dictGet cat.field_words w = none := hb w (by simp)
    have hb' : ∀ x ∈ b, dictGet cat.field_words x = none := fun x hx => hb x (by simp [hx])
    rw [splitFieldsLoop_cons, hw]
    simp only [Option.elim]
    rw [ih (ws ++ [w]) hb']
    simp [List.append_assoc]

theorem splitFieldsLoop_nodup (cat : Catalog) :
    ∀ (q : List String) (flds : List (String × List String))
      (row : Option (String × List String)) (m : List (String × List String)),
      (flds.map Prod.fst).Nodup →
      splitFieldsLoop cat flds row q = .ok m → (m.map Prod.fst).Nodup := by
  intro q
  induction q with
  | nil =>
    intro flds row m hnd hok
    simp only [splitFieldsLoop, Except.ok.injEq] at hok
    subst hok
    cases row with
    | none => exact hnd
    | some p => exact nodup_keys_dictSet _ _ _ hnd
  | cons w rest ih =>
    intro flds row m hnd hok
    rw [splitFieldsLoop_cons] at hok
    cases hw : dictGet cat.field_words w with
    | some name =>
      rw [hw] at hok
      simp only [Option.elim] at hok
      refine ih _ _ _ ?_ hok
      cases row with
      | none => exact hnd
      | some p => exact nodup_keys_dictSet _ _ _ hnd
    | none =>
      rw [hw] at hok
      simp only [Option.elim] at hok
      cases row with
      | none => simp at hok
      | some p =>
        simp only [Option.elim] at hok
        exact ih _ _ _ hnd hok

/-- C2 counterexample: with the price keyword occurring twice, the words
of the first run are lost - the bucket committed at end of input
overwrites the existing bucket instead of merging, so the result is
\x7bprice: ["200"]\x7d and not \x7bprice: ["100", "200"]\x7d as the claim
requires. -/
theorem split_fields_merge_cex :
    split_fields demoCat ["ціна", "100", "ціна", "200"] = .ok [("price", ["200"])] := rfl

/-- C2 amended.  Each canonical field name appears at most once in the
resulting map.  When a field keyword recurs, a bucket committed because
another keyword follows it is merged with the existing bucket of the same
name with the later run's words placed before the earlier ones; the bucket
still open at end of input is committed by overwriting any existing bucket
of that name, discarding the earlier runs' words. -/
theorem split_fields_merge_behavior :
    (∀ (cat : Catalog) (q : List String) (m : List (String × List String)),
        split_fields cat q = .ok m → (m.map Prod.fst).Nodup) ∧
    (∀ (cat : Catalog) (k nm : String) (a b : List String),
        dictGet cat.field_words k = some nm →
        (∀ w ∈ a, dictGet cat.field_words w = none) →
        (∀ w ∈ b, dictGet cat.field_words w = none) →
        split_fields cat (k :: (a ++ k :: b)) = .ok [(nm, b)]) ∧
    (∀ (cat : Catalog) (k nm k2 nm2 : String) (a b c : List String),
        dictGet cat.field_words k = some nm →
        dictGet cat.field_words k2 = some nm2 → nm2 ≠ nm →
        (∀ w ∈ a, dictGet cat.field_words w = none) →
        (∀ w ∈ b, dictGet cat.field_words w = none) →
        (∀ w ∈ c, dictGet cat.field_words w = none) →
        split_fields cat (k :: (a ++ k :: (b ++ k2 :: c))) =
          .ok [(nm, b ++ a), (nm2, c)]) := by
  refine ⟨?_, ?_, ?_⟩
  · intro cat q m hok
    exact splitFieldsLoop_nodup cat q [] none m (by simp) hok
  · intro cat k nm a b hk ha hb
    unfold split_fields
    rw [splitFieldsLoop_cons, hk]
    simp only [Option.elim]
    rw [show mergeRow ([] : List (String × List String)) none = [] from rfl]
    rw [splitFieldsLoop_skip cat [] nm [] a (k :: b) ha]
    simp only [List.nil_append]
    rw [splitFieldsLoop_cons, hk]
    simp only [Option.elim]
    rw [splitFieldsLoop_finish cat _ nm [] b hb]
    simp [mergeRow, dictGet, dictSet]
  · intro cat k nm k2 nm2 a b c hk hk2 hne ha hb hc
    unfold split_fields
    rw [splitFieldsLoop_cons, hk]
    simp only [Option.elim]
    rw [show mergeRow ([] : List (String × List String)) none = [] from rfl]
    rw [splitFieldsLoop_skip cat [] nm [] a (k :: (b ++ k2 :: c)) ha]
    simp only [List.nil_append]
    rw [splitFieldsLoop_cons, hk]
    simp only [Option.elim]
    rw [splitFieldsLoop_skip cat _ nm [] b (k2 :: c) hb]
    simp only [List.nil_append]
    rw [splitFieldsLoop_cons, hk2]
    simp only [Option.elim]
    rw [splitFieldsLoop_finish cat _ nm2 [] c hc]
    simp [mergeRow, dictGet, dictSet, hne, Ne.symm hne]

/-- C2 amended witness: the overwrite equation at a concrete catalog and
query. -/
theorem split_fields_merge_behavior_witness :
    split_fields demoCat ["ціна", "100", "ціна", "200", "адреса", "вул"] =
      .ok [("price", ["200", "100"]), ("address", ["вул"])] := by
  have h := split_fields_merge_behavior.2.2 demoCat "ціна" "price" "адреса" "address"
      ["100"] ["200"] ["вул"] rfl rfl (by decide) (by decide) (by decide) (by decide)
  simpa using h

/-! C5: the price bucket becomes an inclusive numeric range. -/

theorem searchSteps_nil (nf : List (String × FieldVal)) : searchSteps nf [] = .ok nf := rfl

theorem searchSteps_cons (nf : List (String × FieldVal)) (k : String) (ks : List String) :
    searchSteps nf (k :: ks) =
      match searchStep nf k with
      | .ok nf' => searchSteps nf' ks
      | .error e => .error e := rfl

theorem searchStep_preserves_price (nf : List (String × FieldVal)) (k : String)
    (h : k ≠ "price") :
    ∃ nf', searchStep nf k = .ok nf' ∧ dictGet nf' "price" = dictGet nf "price" := by
  unfold searchStep
  by_cases h1 : k = "description"
  · subst h1
    simp only [if_pos rfl]
    exact ⟨_, rfl, by
      rw [dictGet_dictDel_ne _ _ _ (by decide), dictGet_dictSet_ne _ _ _ _ (by decide)]⟩
  · rw [if_neg h1]
    by_cases h2 : k = "fullname"
    · subst h2
      simp only [if_pos rfl]
      exact ⟨_, rfl, by rw [dictGet_dictSet_ne _ _ _ _ (by decide)]⟩
    · rw [if_neg h2]
      by_cases h3 : k = "address"
      · subst h3
        simp only [if_pos rfl]
        exact ⟨_, rfl, by
          rw [dictGet_dictDel_ne _ _ _ (by decide), dictGet_dictSet_ne _ _ _ _ (by decide)]⟩
      · rw [if_neg h3]
        by_cases h4 : k = "timestamp" ∨ k = "level"
        · rw [if_pos h4]
          refine ⟨_, rfl, ?_⟩
          rcases h4 with h4 | h4 <;> subst h4 <;> rw [dictGet_dictSet_ne _ _ _ _ (by decide)]
        · rw [if_neg h4, if_neg h]
          exact ⟨nf, rfl, rfl⟩

theorem searchSteps_no_price (ks : List String) :
    ∀ nf, "price" ∉ ks →
      ∃ nf', searchSteps nf ks = .ok nf' ∧ dictGet nf' "price" = dictGet nf "price" := by
  induction ks with
  | nil =>
    intro nf _
    exact ⟨nf, rfl, rfl⟩
  | cons k ks ih =>
    intro nf hmem
    have hk : k ≠ "price" := fun h => hmem (by simp [h])
    obtain ⟨nf1, hstep, hpres⟩ := searchStep_preserves_price nf k hk
    have hmem' : "price" ∉ ks := fun h => hmem (by simp [h])
    obtain ⟨nf2, hsteps, hpres2⟩ := ih nf1 hmem'
    refine ⟨nf2, ?_, hpres2.trans hpres⟩
    rw [searchSteps_cons, hstep]
    exact hsteps

theorem searchStep_price (nf : List (String × FieldVal)) (ws : List String)
    (h : dictGet nf "price" = some (.words ws)) (hv : priceValues ws ≠ []) :
    searchStep nf "price" =
      .ok (dictSet nf "price"
        (.range (listMin (priceValues ws)) (listMax (priceValues ws)))) := by
  unfold searchStep
  rw [if_neg (by decide), if_neg (by decide), if_neg (by decide), if_neg (by decide),
    if_pos rfl, h]
  rw [show getWords (some (FieldVal.words ws)) = ws from rfl, if_neg hv]

theorem searchSteps_append (xs ys : List String) :
    ∀ (nf nf1 : List (String × FieldVal)), searchSteps nf xs = .ok nf1 →
      searchSteps nf (xs ++ ys) = searchSteps nf1 ys := by
  induction xs with
  | nil =>
    intro nf nf1 h
    simp only [searchSteps_nil, Except.ok.injEq] at h
    subst h
    rfl
  | cons k xs ih =>
    intro nf nf1 h
    rw [searchSteps_cons] at h
    rw [List.cons_append, searchSteps_cons]
    cases hs : searchStep nf k with
    | ok nf' =>
      rw [hs] at h
      exact ih nf' nf1 h
    | error e =>
      rw [hs] at h
      exact absurd h (by simp)

/-- C5.  When the field map holds a price bucket whose joined text has at
least one digit run, the search transform succeeds and replaces the price
entry by the inclusive range from the minimum to the maximum of the parsed
integers. -/
theorem fix_search_price_range :
    ∀ (fields : List (String × List String)) (ws : List String),
      (fields.map Prod.fst).Nodup →
      dictGet fields "price" = some ws →
      priceValues ws ≠ [] →
      (fix_search_fields fields).toOption.bind (fun m => dictGet m "price") =
        some (.range (listMin (priceValues ws)) (listMax (priceValues ws))) := by
  intro fields ws hnd hget hv
  have hmem : "price" ∈ fields.map Prod.fst := dictGet_mem_keys fields "price" ws hget
  obtain ⟨l1, l2, hsplit⟩ := List.append_of_mem hmem
  have hnd' : (l1 ++ "price" :: l2).Nodup := hsplit ▸ hnd
  obtain ⟨hndl1, hndl2, hdisj⟩ := List.nodup_append.mp hnd'
  have hnl1 : "price" ∉ l1 := fun hmem1 => hdisj hmem1 (List.mem_cons_self _ _)
  have hnl2 : "price" ∉ l2 := (List.nodup_cons.mp hndl2).1
  have hget0 : dictGet (fields.map (fun p => (p.1, FieldVal.words p.2))) "price" =
      some (.words ws) := by
    rw [dictGet_map_words, hget]
    rfl
  obtain ⟨nf1, h1, hp1⟩ := searchSteps_no_price l1 _ hnl1
  have hget1 : dictGet nf1 "price" = some (.words ws) := hp1.trans hget0
  have hstep := searchStep_price nf1 ws hget1 hv
  obtain ⟨nf2, h2, hp2⟩ := searchSteps_no_price l2
    (dictSet nf1 "price" (.range (listMin (priceValues ws)) (listMax (priceValues ws)))) hnl2
  have hrun : searchSteps nf1 ("price" :: l2) = .ok nf2 := by
    rw [searchSteps_cons, hstep]
    exact h2
  unfold fix_search_fields
  rw [hsplit, searchSteps_append l1 ("price" :: l2) _ nf1 h1, hrun]
  simp only [Except.toOption, Option.some_bind]
  rw [hp2, dictGet_dictSet_self]

/-! C8: which inputs make the renderer raise the unknown-target error. -/

theorem renderDocs_nil (c : String) (acc : String) (i : Nat) :
    renderDocs c [] acc i = .ok acc := rfl

theorem renderDocs_known (c : String)
    (hc : c = "appartments" ∨ c = "workers" ∨ c = "requests") :
    ∀ (l : List (List (String × String))) (acc : String) (i : Nat),
      ∃ s, renderDocs c l acc i = .ok s := by
  intro l
  induction l with
  | nil =>
    intro acc i
    exact ⟨acc, rfl⟩
  | cons d rest ih =>
    intro acc i
    rcases hc with h | h | h <;> subst h
    · exact ih _ _
    · exact ih _ _
    · exact ih _ _

theorem renderDocs_unknown (c : String) (h1 : ¬c = "appartments") (h2 : ¬c = "workers")
    (h3 : ¬c = "requests") (d : List (String × String)) (rest : List (List (String × String)))
    (acc : String) (i : Nat) :
    renderDocs c (d :: rest) acc i = .error .unknownRenderTarget := by
  unfold renderDocs
  rw [if_neg h1, if_neg h2, if_neg h3]

/-- C8 counterexample: an unknown collection under insert renders the
generic acknowledgment sentence, and under select with an empty result
set renders the bare header - neither raises the unknown-render-target
error, contrary to the claim that the renderer fails whenever the
collection is not one of appartments/workers/requests. -/
theorem format_response_unknown_collection_cex :
    format_response (.ack "abc") "bogus" "insert" =
      .ok ("Було успішно внесено запит у колекцію bogus з ідентифікатором abc\n") ∧
    format_response (.docs []) "bogus" "select" =
      .ok "Було знайдено наступні дані:\n\n" :=
  ⟨rfl, rfl⟩

theorem format_response_select_docs (l : List (List (String × String))) (c : String) :
    format_response (.docs l) c "select" =
      renderDocs c l "Було знайдено наступні дані:\n\n" 0 := rfl

theorem format_response_select_ack (v : String) (c : String) :
    format_response (.ack v) c "select" = .error .typeMismatch := rfl

theorem format_response_insert_eq (r : ResultVal) (c : String) :
    format_response r c "insert" =
      if c = "requests" then
        .ok ("Ваш запит було успішно опрацьовано! " ++
          "З вами зв\x27яжуться протягом робочого дня.\n")
      else
        match r with
        | .ack v => .ok ("Було успішно внесено запит у колекцію " ++ c ++
            " з ідентифікатором " ++ v ++ "\n")
        | .docs _ => .error .typeMismatch := rfl

theorem format_response_other (r : ResultVal) (c f : String)
    (h1 : f ≠ "select") (h2 : f ≠ "insert") :
    format_response r c f = .error .unknownRenderTarget := by
  unfold format_response
  rw [if_neg h1, if_neg h2]

/-- C8 amended.  format_response raises the unknown-render-target error
exactly when the operation is neither select nor insert, or when the
operation is select, the result list is nonempty and the collection is
unknown (the per-document check); an unknown collection under insert, or
under select with an empty result, goes undetected. -/
theorem format_response_error_characterization :
    ∀ (r : ResultVal) (collection func : String),
      format_response r collection func = .error .unknownRenderTarget ↔
        ((func ≠ "select" ∧ func ≠ "insert") ∨
          (func = "select" ∧
            ¬(collection = "appartments" ∨ collection = "workers" ∨ collection = "requests") ∧
            ∃ d l, r = .docs (d :: l))) := by
  intro r collection func
  by_cases hf : func = "select"
  · subst hf
    cases r with
    | ack v =>
      rw [format_response_select_ack]
      apply iff_of_false (by simp)
      rintro (⟨hne, _⟩ | ⟨_, _, d, l, hdl⟩)
      · exact hne rfl
      · simp at hdl
    | docs l =>
      rw [format_response_select_docs]
      by_cases hc : collection = "appartments" ∨ collection = "workers" ∨ collection = "requests"
      · obtain ⟨s, hs⟩ := renderDocs_known collection hc l "Було знайдено наступні дані:\n\n" 0
        rw [hs]
        apply iff_of_false (by simp)
        rintro (⟨hne, _⟩ | ⟨_, hc2, _⟩)
        · exact hne rfl
        · exact hc2 hc
      · have hc1 : ¬collection = "appartments" := fun h => hc (Or.inl h)
        have hc2 : ¬collection = "workers" := fun h => hc (Or.inr (Or.inl h))
        have hc3 : ¬collection = "requests" := fun h => hc (Or.inr (Or.inr h))
        cases l with
        | nil =>
          rw [renderDocs_nil]
          apply iff_of_false (by simp)
          rintro (⟨hne, _⟩ | ⟨_, _, d, l2, hdl⟩)
          · exact hne rfl
          · simp at hdl
        | cons d rest =>
          rw [renderDocs_unknown collection hc1 hc2 hc3]
          exact iff_of_true rfl (Or.inr ⟨rfl, hc, d, rest, rfl⟩)
  · by_cases hf2 : func = "insert"
    · subst hf2
      rw [format_response_insert_eq]
      apply iff_of_false
      · by_cases hcr : collection = "requests"
        · simp [hcr]
        · rw [if_neg hcr]
          cases r <;> simp
      · rintro (⟨_, hne⟩ | ⟨hsel, _⟩)
        · exact hne rfl
        · exact hf hsel
    · rw [format_response_other r collection func hf hf2]
      exact iff_of_true rfl (Or.inl ⟨hf, hf2⟩)

/-! C1: the permission matrix of the intent resolver. -/

theorem collectionOf_cases (cat : Catalog) (word c : String)
    (h : collectionOf cat word = some c) :
    c = "appartments" ∨ c = "workers" ∨ c = "requests" := by
  unfold collectionOf at h
  split at h
  · simp only [Option.some.injEq] at h
    exact Or.inl h.symm
  · split at h
    · simp only [Option.some.injEq] at h
      exact Or.inr (Or.inl h.symm)
    · split at h
      · simp only [Option.some.injEq] at h
        exact Or.inr (Or.inr h.symm)
      · exact absurd h (by simp)

theorem funcOf_cases (cat : Catalog) (verb f : String)
    (h : funcOf cat verb = some f) : f = "select" ∨ f = "insert" := by
  unfold funcOf at h
  split at h
  · simp only [Option.some.injEq] at h
    exact Or.inl h.symm
  · split at h
    · simp only [Option.some.injEq] at h
      exact Or.inr h.symm
    · exact absurd h (by simp)

/-- C1.  For either role and any verb and target word that classify to
operation f and collection c, make_query reaches the storage dispatch for
that collection and operation (modulo the field transform's own errors)
exactly when (role, f, c) is one of the six allowed triples, and raises
the permission error for each of the six other triples. -/
theorem make_query_permission_matrix :
    ∀ (normalize : String → List String) (now : String) (cat : Catalog)
      (status verb word : String) (fields : List (String × List String)) (c f : String),
      collectionOf cat word = some c →
      funcOf cat verb = some f →
      (status = "customer" ∨ status = "realtor") →
      (((status, f, c) ∈ allowedTriples →
        make_query normalize now cat status verb word fields =
          (if f = "select" then
            (fix_search_fields fields).map (fun nf => (.find c nf, c, f))
          else
            (fix_insertion_fields normalize now fields c).map
              (fun doc => (.insertOne c doc, c, f)))) ∧
      ((status, f, c) ∉ allowedTriples →
        make_query normalize now cat status verb word fields =
          .error .permissionDenied)) := by
  intro normalize now cat status verb word fields c f hcoll hfunc hstatus
  have hc := collectionOf_cases cat word c hcoll
  have hf := funcOf_cases cat verb f hfunc
  constructor
  · intro hmem
    rcases hstatus with h | h <;> subst h <;>
      rcases hc with h | h | h <;> subst h <;>
        rcases hf with h | h <;> subst h <;>
          first
            | (simp [make_query, hcoll, hfunc]; done)
            | simp [allowedTriples] at hmem
  · intro hmem
    rcases hstatus with h | h <;> subst h <;>
      rcases hc with h | h | h <;> subst h <;>
        rcases hf with h | h <;> subst h <;>
          first
            | (simp [make_query, hcoll, hfunc]; done)
            | exact absurd (by simp [allowedTriples]) hmem

/-- C1 witness: a customer select on appartments at a concrete catalog
goes through to the find call. -/
theorem make_query_permission_matrix_witness :
    make_query (fun _ => []) "t" demoCat "customer" "показати" "нерухомість" [] =
      .ok (.find "appartments" [], "appartments", "select") := by
  have h := (make_query_permission_matrix (fun _ => []) "t" demoCat "customer" "показати"
      "нерухомість" [] "appartments" "select" (by decide) (by decide) (Or.inl rfl)).1
      (by simp [allowedTriples])
  exact h.trans (by rfl)

/-- C5 witness: the spec's range example at a concrete bucket. -/
theorem fix_search_price_range_witness :
    (fix_search_fields [("price", ["від", "100", "до", "200", "грн"])]).toOption.bind
        (fun m => dictGet m "price") = some (.range 100 200) := by
  have h := fix_search_price_range [("price", ["від", "100", "до", "200", "грн"])]
      ["від", "100", "до", "200", "грн"] (by simp) rfl (by decide)
  exact h.trans (by rfl)

/-! C3: the action locator finds the pattern or fails with the
pattern-not-found error. -/

theorem beginsWith_iff (p l : List Char) : beginsWith p l = true ↔ ∃ t, l = p ++ t := by
  induction p generalizing l with
  | nil => simp [beginsWith]
  | cons a as ih =>
    cases l with
    | nil => simp [beginsWith]
    | cons b bs =>
      simp only [beginsWith, Bool.and_eq_true, decide_eq_true_eq, ih]
      constructor
      · rintro ⟨rfl, t, rfl⟩
        exact ⟨t, rfl⟩
      · rintro ⟨t, ht⟩
        simp only [List.cons_append, List.cons.injEq] at ht
        exact ⟨ht.1.symm, t, ht.2⟩

theorem beginsWith_append (p t : List Char) : beginsWith p (p ++ t) = true :=
  (beginsWith_iff p (p ++ t)).mpr ⟨t, rfl⟩

theorem beginsWith_length {p l : List Char} (h : beginsWith p l = true) :
    p.length ≤ l.length := by
  obtain ⟨t, rfl⟩ := (beginsWith_iff p l).mp h
  simp

theorem firstSome_eq_none {α β : Type} (f : α → Option β) (l : List α) :
    firstSome f l = none ↔ ∀ a ∈ l, f a = none := by
  induction l with
  | nil => simp [firstSome]
  | cons a l ih =>
    simp only [firstSome]
    cases hfa : f a with
    | some b =>
      apply iff_of_false (by simp)
      intro hall
      have h := hall a (by simp)
      rw [hfa] at h
      cases h
    | none =>
      rw [ih]
      constructor
      · intro h x hx
        rcases List.mem_cons.mp hx with rfl | hx
        · exact hfa
        · exact h x hx
      · intro h x hx
        exact h x (by simp [hx])

theorem firstSome_eq_some {α β : Type} (f : α → Option β) (l : List α) (b : β) :
    firstSome f l = some b → ∃ a ∈ l, f a = some b := by
  induction l with
  | nil => intro h; cases h
  | cons a l ih =>
    simp only [firstSome]
    cases hfa : f a with
    | some c =>
      intro h
      cases h
      exact ⟨a, by simp, hfa⟩
    | none =>
      intro h
      obtain ⟨x, hx, hfx⟩ := ih h
      exact ⟨x, by simp [hx], hfx⟩

theorem tryFillers_zero (acts : List (List Char)) (rest : List Char) :
    tryFillers acts rest 0 =
      firstSome (fun a => if beginsWith a rest then some (([] : List Char), a) else none)
        acts := rfl

theorem tryFillers_succ (acts : List (List Char)) (rest : List Char) (n : Nat) :
    tryFillers acts rest (n + 1) =
      match
        (if (rest.take (n + 1)).length = n + 1 ∧ (rest.take (n + 1)).all isWordSpace then
          firstSome
            (fun a =>
              if beginsWith a (rest.drop (n + 1)) then some (rest.take (n + 1), a) else none)
            acts
        else none) with
      | some r => some r
      | none => tryFillers acts rest n := rfl

theorem tryFillers_some (acts : List (List Char)) (rest : List Char) :
    ∀ (N : Nat) (fl a : List Char), tryFillers acts rest N = some (fl, a) →
      fl.length ≤ N ∧ rest.take fl.length = fl ∧ (∀ c ∈ fl, isWordSpace c = true) ∧
        a ∈ acts ∧ ∃ t, rest.drop fl.length = a ++ t := by
  intro N
  induction N with
  | zero =>
    intro fl a h
    rw [tryFillers_zero] at h
    obtain ⟨x, hx, hfx⟩ := firstSome_eq_some _ _ _ h
    by_cases hb : beginsWith x rest = true
    · rw [if_pos hb] at hfx
      simp only [Option.some.injEq, Prod.mk.injEq] at hfx
      obtain ⟨h1, h2⟩ := hfx
      subst h1
      subst h2
      obtain ⟨t, ht⟩ := (beginsWith_iff x rest).mp hb
      exact ⟨by simp, by simp, by simp, hx, t, by simpa using ht⟩
    · rw [if_neg hb] at hfx
      cases hfx
  | succ n ih =>
    intro fl a h
    rw [tryFillers_succ] at h
    cases hmt :
        (if (rest.take (n + 1)).length = n + 1 ∧ (rest.take (n + 1)).all isWordSpace then
          firstSome
            (fun a =>
              if beginsWith a (rest.drop (n + 1)) then some (rest.take (n + 1), a) else none)
            acts
        else none) with
    | some r =>
      rw [hmt] at h
      have hr : r = (fl, a) := by injection h
      subst hr
      by_cases hg : (rest.take (n + 1)).length = n + 1 ∧ (rest.take (n + 1)).all isWordSpace
      · rw [if_pos hg] at hmt
        obtain ⟨x, hx, hfx⟩ := firstSome_eq_some _ _ _ hmt
        by_cases hb : beginsWith x (rest.drop (n + 1)) = true
        · rw [if_pos hb] at hfx
          simp only [Option.some.injEq, Prod.mk.injEq] at hfx
          obtain ⟨h1, h2⟩ := hfx
          have hlen : fl.length = n + 1 := by rw [← h1]; exact hg.1
          have hws2 : ∀ c ∈ fl, isWordSpace c = true := by
            intro c hc
            have hall := hg.2
            rw [List.all_eq_true] at hall
            exact hall c (by rw [h1]; exact hc)
          have hdrop : ∃ t, rest.drop fl.length = a ++ t := by
            rw [hlen, ← h2]
            exact (beginsWith_iff x (rest.drop (n + 1))).mp hb
          exact ⟨by omega, by rw [hlen, h1], hws2, by rw [← h2]; exact hx, hdrop⟩
        · rw [if_neg hb] at hfx
          cases hfx
      · rw [if_neg hg] at hmt
        cases hmt
    | none =>
      rw [hmt] at h
      obtain ⟨h1, h2, h3, h4, h5⟩ := ih fl a h
      exact ⟨by omega, h2, h3, h4, h5⟩

theorem tryFillers_none (acts : List (List Char)) (rest : List Char) :
    ∀ N, tryFillers acts rest N = none →
      ∀ (f a t : List Char), f.length ≤ N → (∀ c ∈ f, isWordSpace c = true) →
        a ∈ acts → rest = f ++ (a ++ t) → False := by
  intro N
  induction N with
  | zero =>
    intro h f a t hlen hws ha hrest
    have hf : f = [] := List.eq_nil_of_length_eq_zero (Nat.le_zero.mp hlen)
    subst hf
    simp only [List.nil_append] at hrest
    rw [tryFillers_zero, firstSome_eq_none] at h
    have hx := h a ha
    rw [if_pos (by rw [hrest]; exact beginsWith_append a t)] at hx
    cases hx
  | succ n ih =>
    intro h f a t hlen hws ha hrest
    rw [tryFillers_succ] at h
    cases hmt :
        (if (rest.take (n + 1)).length = n + 1 ∧ (rest.take (n + 1)).all isWordSpace then
          firstSome
            (fun a =>
              if beginsWith a (rest.drop (n + 1)) then some (rest.take (n + 1), a) else none)
            acts
        else none) with
    | some r =>
      rw [hmt] at h
      cases h
    | none =>
      rw [hmt] at h
      by_cases hfl : f.length = n + 1
      · have htake : rest.take (n + 1) = f := by
          rw [hrest, ← hfl, List.take_left]
        have hguard : (rest.take (n + 1)).length = n + 1 ∧
            (rest.take (n + 1)).all isWordSpace := by
          constructor
          · rw [htake, hfl]
          · rw [htake, List.all_eq_true]
            exact hws
        rw [if_pos hguard, firstSome_eq_none] at hmt
        have hx := hmt a ha
        have hb : beginsWith a (rest.drop (n + 1)) = true := by
          rw [hrest, ← hfl, List.drop_left]
          exact beginsWith_append a t
        rw [if_pos hb] at hx
        cases hx
      · exact ih h f a t (by omega) hws ha hrest

theorem matchAt_none {verbs acts : List (List Char)} {s : List Char}
    (h : matchAt verbs acts s = none) :
    ∀ v ∈ verbs, ∀ (f : List Char), f.length ≤ 20 → (∀ c ∈ f, isWordSpace c = true) →
      ∀ a ∈ acts, ∀ t, s ≠ v ++ (f ++ (a ++ t)) := by
  intro v hv f hf20 hws a ha t hs
  unfold matchAt at h
  rw [firstSome_eq_none] at h
  have hvb := h v hv
  have hbw : beginsWith v s = true := by rw [hs]; exact beginsWith_append v _
  rw [if_pos hbw] at hvb
  have hdrop : s.drop v.length = f ++ (a ++ t) := by rw [hs, List.drop_left]
  cases hopt : tryFillers acts (s.drop v.length) 20 with
  | some p =>
    rw [hopt] at hvb
    cases hvb
  | none => exact tryFillers_none acts _ 20 hopt f a t hf20 hws ha hdrop

theorem matchAt_some {verbs acts : List (List Char)} {s m : List Char}
    (h : matchAt verbs acts s = some m) :
    ∃ v f a t, s = v ++ (f ++ (a ++ t)) ∧ v ∈ verbs ∧ a ∈ acts ∧ f.length ≤ 20 ∧
      (∀ c ∈ f, isWordSpace c = true) ∧ m = v ++ f ++ a := by
  unfold matchAt at h
  obtain ⟨v, hv, hveq⟩ := firstSome_eq_some _ _ _ h
  by_cases hbw : beginsWith v s = true
  · rw [if_pos hbw] at hveq
    cases hopt : tryFillers acts (s.drop v.length) 20 with
    | none =>
      rw [hopt] at hveq
      cases hveq
    | some p =>
      rw [hopt] at hveq
      obtain ⟨fl, a⟩ := p
      have hm : v ++ fl ++ a = m := by simpa using hveq
      obtain ⟨hle, htake, hws, ha, t, hdropeq⟩ := tryFillers_some acts _ 20 fl a hopt
      obtain ⟨rest, hrest⟩ := (beginsWith_iff v s).mp hbw
      have hdl : s.drop v.length = rest := by rw [hrest, List.drop_left]
      rw [hdl] at htake hdropeq
      refine ⟨v, fl, a, t, ?_, hv, ha, hle, hws, hm.symm⟩
      rw [hrest]
      congr 1
      rw [← htake, ← hdropeq, List.take_append_drop]
  · rw [if_neg hbw] at hveq
    cases hveq

theorem searchAction_some_has {verbs acts : List (List Char)} {s m : List Char}
    (h : searchAction verbs acts s = some m) : HasActionMatch verbs acts s := by
  unfold searchAction at h
  obtain ⟨i, hi, hmi⟩ := firstSome_eq_some _ _ _ h
  obtain ⟨v, f, a, t, hdec, hv, ha, hf20, hws, hm⟩ := matchAt_some hmi
  refine ⟨s.take i, v, f, a, t, ?_, hv, ha, hf20, hws⟩
  have hsplit : s = s.take i ++ (v ++ (f ++ (a ++ t))) := by
    conv_lhs => rw [← List.take_append_drop i s]
    rw [hdec]
  exact hsplit.trans (by simp [List.append_assoc])

theorem searchAction_none_iff (verbs acts : List (List Char)) (s : List Char) :
    searchAction verbs acts s = none ↔ ¬ HasActionMatch verbs acts s := by
  constructor
  · intro h hmatch
    obtain ⟨p, v, f, a, q, hdec, hv, ha, hf20, hws⟩ := hmatch
    have hdec' : s = p ++ (v ++ (f ++ (a ++ q))) := by rw [hdec]; simp [List.append_assoc]
    unfold searchAction at h
    rw [firstSome_eq_none] at h
    have hplen : p.length ≤ s.length := by rw [hdec']; simp
    have hnone := h p.length (List.mem_range.mpr (by omega))
    have hdrop : s.drop p.length = v ++ (f ++ (a ++ q)) := by rw [hdec', List.drop_left]
    exact matchAt_none hnone v hv f hf20 hws a ha q hdrop
  · intro h
    cases hs : searchAction verbs acts s with
    | none => rfl
    | some m => exact absurd (searchAction_some_has hs) h

/-- C3.  split_on_parts fails with the pattern-not-found error exactly
when the joined sentence has no substring of the form verb alternative,
then at most 20 word-or-whitespace filler characters, then an action-word
alternative; on success the returned verb and target are the first and
last whitespace-delimited tokens of the located first match, and the
returned field words have all empty entries dropped. -/
theorem split_on_parts_action_locator :
    ∀ (cat : Catalog) (ws : List String),
      (split_on_parts cat ws = .error .patternNotFound ↔
        ¬ HasActionMatch cat.rverbs cat.raction_words (joinWords ws)) ∧
      (∀ (flds : List String) (v t : String),
        split_on_parts cat ws = .ok (flds, (v, t)) →
        (∀ w ∈ flds, w ≠ "") ∧
          (searchAction cat.rverbs cat.raction_words (joinWords ws)).map
              (fun m => (ofL ((splitSpace m).headD []), ofL ((splitSpace m).getLastD []))) =
            some (v, t)) := by
  intro cat ws
  simp only [split_on_parts]
  cases hs : searchAction cat.rverbs cat.raction_words (joinWords ws) with
  | none =>
    constructor
    · exact iff_of_true rfl ((searchAction_none_iff _ _ _).mp hs)
    · intro flds v t h
      exact absurd h (by simp)
  | some m =>
    constructor
    · apply iff_of_false (by simp)
      intro hneg
      exact hneg (searchAction_some_has hs)
    · intro flds v t h
      simp only [Except.ok.injEq, Prod.mk.injEq] at h
      obtain ⟨hflds, hv, ht⟩ := h
      constructor
      · intro w hw
        rw [← hflds] at hw
        simp only [List.mem_map] at hw
        obtain ⟨l, hl, rfl⟩ := hw
        rw [List.mem_filter] at hl
        have hlne : l ≠ [] := by simpa using hl.2
        intro hempty
        apply hlne
        have h2 := congrArg String.data hempty
        simpa [ofL] using h2
      · show some (ofL ((splitSpace m).headD []), ofL ((splitSpace m).getLastD [])) =
          some (v, t)
        rw [hv, ht]

/-- C3 witness: the spec's end-to-end example; the verb and target are the
first and last tokens of the located match. -/
theorem split_on_parts_action_locator_witness :
    (searchAction demoCat.rverbs demoCat.raction_words
        (joinWords ["показати", "нерухомість", "адреса", "вулиця", "шевченка"])).map
        (fun m => (ofL ((splitSpace m).headD []), ofL ((splitSpace m).getLastD []))) =
      some ("показати", "нерухомість") :=
  ((split_on_parts_action_locator demoCat
      ["показати", "нерухомість", "адреса", "вулиця", "шевченка"]).2
    ["адреса", "вулиця", "шевченка"] "показати" "нерухомість" rfl).2

/-! C10: the deletion of the matched action phrase from the sentence. -/

/-- C10 counterexample: the matched phrase occurs twice in the joined
sentence (at its start and, as witnessed by the drop-29 prefix test and
the scan count of 2, inside the word region); str.replace deletes both
occurrences, but the deletions splice the surrounding fragments into a
fresh copy of the phrase, so the returned field words - joined back with
spaces - are exactly the phrase again, contrary to the claim that all
copies of the phrase are absent from the returned field words. -/
theorem split_on_parts_phrase_respawn_cex :
    split_on_parts demoCat
        ["показати", "нерухомість", "показатипоказати", "нерухомість", "нерухомість"] =
      .ok (["показати", "нерухомість"], ("показати", "нерухомість")) ∧
    searchAction demoCat.rverbs demoCat.raction_words
        (joinWords
          ["показати", "нерухомість", "показатипоказати", "нерухомість", "нерухомість"]) =
      some (toL "показати нерухомість") ∧
    beginsWith (toL "показати нерухомість")
        (joinWords
          ["показати", "нерухомість", "показатипоказати", "нерухомість", "нерухомість"]) =
      true ∧
    beginsWith (toL "показати нерухомість")
        (List.drop 29 (joinWords
          ["показати", "нерухомість", "показатипоказати", "нерухомість", "нерухомість"])) =
      true ∧
    scanCount (toL "показати нерухомість")
        (joinWords
          ["показати", "нерухомість", "показатипоказати", "нерухомість", "нерухомість"]) =
      2 ∧
    joinWords ["показати", "нерухомість"] = toL "показати нерухомість" :=
  ⟨rfl, rfl, rfl, rfl, rfl, rfl⟩

theorem replaceAllGo_length (m : List Char) :
    ∀ (fuel : Nat) (s : List Char), s.length ≤ fuel →
      (replaceAllGo m fuel s).length + m.length * scanCountGo m fuel s = s.length := by
  intro fuel
  induction fuel with
  | zero =>
    intro s hs
    have hnil : s = [] := List.eq_nil_of_length_eq_zero (Nat.le_zero.mp hs)
    subst hnil
    simp [replaceAllGo, scanCountGo]
  | succ fuel ih =>
    intro s hs
    cases s with
    | nil => simp [replaceAllGo, scanCountGo]
    | cons c rest =>
      simp only [replaceAllGo, scanCountGo]
      by_cases h : beginsWith m (c :: rest) = true ∧ m ≠ []
      · rw [if_pos h, if_pos h]
        have hm1 : 1 ≤ m.length := by
          cases m with
          | nil => exact absurd rfl h.2
          | cons x xs => simp
        have hlen := beginsWith_length h.1
        simp only [List.length_cons] at hlen hs
        have hdl : (rest.drop (m.length - 1)).length ≤ fuel := by
          simp only [List.length_drop]
          omega
        have ihd := ih (rest.drop (m.length - 1)) hdl
        simp only [List.length_drop] at ihd
        simp only [List.length_cons, Nat.mul_add, Nat.mul_one]
        omega
      · rw [if_neg h, if_neg h]
        have hr : rest.length ≤ fuel := by
          simp only [List.length_cons] at hs
          omega
        have ihr := ih rest hr
        simp only [List.length_cons]
        omega

theorem replaceAllGo_single (c : Char) :
    ∀ (fuel : Nat) (s : List Char), s.length ≤ fuel → c ∉ replaceAllGo [c] fuel s := by
  intro fuel
  induction fuel with
  | zero =>
    intro s hs
    have hnil : s = [] := List.eq_nil_of_length_eq_zero (Nat.le_zero.mp hs)
    subst hnil
    simp [replaceAllGo]
  | succ fuel ih =>
    intro s hs
    cases s with
    | nil => simp [replaceAllGo]
    | cons d rest =>
      simp only [replaceAllGo]
      have hr : rest.length ≤ fuel := by
        simp only [List.length_cons] at hs
        omega
      by_cases h : beginsWith [c] (d :: rest) = true ∧ ([c] : List Char) ≠ []
      · rw [if_pos h]
        simpa using ih rest hr
      · rw [if_neg h]
        have hne : ¬(c = d) := by
          intro hcd
          exact h ⟨by subst hcd; simp [beginsWith], by simp⟩
        intro hmem
        rcases List.mem_cons.mp hmem with h1 | h1
        · exact hne h1
        · exact ih rest hr h1

/-- C10 amended.  split_on_parts computes the remaining field words from
the joined sentence with every left-to-right non-overlapping occurrence of
the matched substring deleted (Python str.replace removes them all, not
only the first match's span): the deleted length is exactly the match
length times the scan's occurrence count, and a single-character phrase is
removed entirely; for a multi-character phrase, however, the deletions can
splice adjacent fragments into a fresh copy of the phrase, which may then
appear among the returned field words. -/
theorem split_on_parts_deletes_every_occurrence :
    (∀ (cat : Catalog) (ws flds : List String) (v t : String),
        split_on_parts cat ws = .ok (flds, (v, t)) →
        (searchAction cat.rverbs cat.raction_words (joinWords ws)).map
            (fun m =>
              ((splitSpace (replaceAll m (joinWords ws))).filter (fun l => l ≠ [])).map ofL) =
          some flds) ∧
    (∀ (m s : List Char), (replaceAll m s).length + m.length * scanCount m s = s.length) ∧
    (∀ (c : Char) (s : List Char), c ∉ replaceAll [c] s) := by
  refine ⟨?_, ?_, ?_⟩
  · intro cat ws flds v t h
    simp only [split_on_parts] at h
    cases hs : searchAction cat.rverbs cat.raction_words (joinWords ws) with
    | none =>
      rw [hs] at h
      exact absurd h (by simp)
    | some m =>
      rw [hs] at h
      simp only [Except.ok.injEq, Prod.mk.injEq] at h
      show some (((splitSpace (replaceAll m (joinWords ws))).filter (fun l => l ≠ [])).map ofL) =
        some flds
      rw [h.1]
  · intro m s
    exact replaceAllGo_length m s.length s (Nat.le_refl _)
  · intro c s
    exact replaceAllGo_single c s.length s (Nat.le_refl _)

/-- C10 amended witness: at the phrase-respawn input the field words are
exactly those computed from the all-occurrence deletion. -/
theorem split_on_parts_deletes_every_occurrence_witness :
    (searchAction demoCat.rverbs demoCat.raction_words
        (joinWords
          ["показати", "нерухомість", "показатипоказати", "нерухомість", "нерухомість"])).map
        (fun m =>
          ((splitSpace (replaceAll m (joinWords
            ["показати", "нерухомість", "показатипоказати", "нерухомість",
              "нерухомість"]))).filter (fun l => l ≠ [])).map ofL) =
      some ["показати", "нерухомість"] :=
  split_on_parts_deletes_every_occurrence.1 demoCat
    ["показати", "нерухомість", "показатипоказати", "нерухомість", "нерухомість"]
    ["показати", "нерухомість"] "показати" "нерухомість" rfl

